import Mathlib

/-!
Verification of the toml-lalrpop document model against its specification.

The Rust sources are embedded shallowly: iterators become functions producing
lists, byte positions (Rust `CharIndices` yields byte offsets) are tracked as
explicit naturals, and panicking operations return `Option`/`Except`.
-/

namespace Toml

/-- Span of bytes (escape/mod.rs `Span`).  The Rust field `end` is a Lean
keyword and is rendered here as `stop`. -/
structure Span where
  start : Nat
  stop : Nat
deriving DecidableEq, Repr

/-- Escape/unescape mode (escape/mod.rs `Mode`). -/
inductive Mode where
  | SingleLine
  | MultiLine
deriving DecidableEq, Repr

/-- Transcoding error (escape/error.rs `Error`). -/
inductive Error where
  | EscapeOnlyChar (span : Span)
  | IncompleteUnicodeEscape (span : Span)
  | InvalidCharInUnicodeEscape (span : Span)
  | InvalidEscape (span : Span)
  | LoneSlash (span : Span)
  | SurrogateUnicodeEscape (span : Span)
  | OutOfRangeUnicodeEscape (span : Span)
deriving DecidableEq, Repr

instance {ε α : Type} [DecidableEq ε] [DecidableEq α] : DecidableEq (Except ε α) := fun a b =>
  match a, b with
  | .ok a, .ok b => if h : a = b then .isTrue (by rw [h]) else .isFalse (by simp [h])
  | .error a, .error b => if h : a = b then .isTrue (by rw [h]) else .isFalse (by simp [h])
  | .ok _, .error _ => .isFalse (by simp)
  | .error _, .ok _ => .isFalse (by simp)

/-- Rust `char::is_ascii_control`: U+0000 ..= U+001F and U+007F. -/
def isAsciiControl (c : Char) : Bool :=
  c.toNat ≤ 0x1F || c.toNat = 0x7F

/-- Rust `u8::is_ascii_whitespace`: space, horizontal tab, line feed,
form feed, carriage return. -/
def isAsciiWhitespace (c : Char) : Bool :=
  c = ' ' || c = '\t' || c = '\n' || c = Char.ofNat 0x0C || c = '\r'

/-- Rust `char::to_digit(16)`. -/
def toDigit16? (c : Char) : Option Nat :=
  if '0' ≤ c ∧ c ≤ '9' then some (c.toNat - '0'.toNat)
  else if 'a' ≤ c ∧ c ≤ 'f' then some (c.toNat - 'a'.toNat + 10)
  else if 'A' ≤ c ∧ c ≤ 'F' then some (c.toNat - 'A'.toNat + 10)
  else none

/-- Unescape.parse_unicode_escape (escape/unescape.rs).  Arguments: `start` is
the byte offset of the backslash, `pos` the byte offset of the next unread
character, `stopSoFar` the current `span.end`, `n` the number of hex digits
still expected, `value` the accumulator, `cs` the remaining characters.
Returns the produced result together with the new byte position and the
number of characters consumed from `cs`. -/
def parseUnicodeEscape (start pos stopSoFar : Nat) (n value : Nat) (cs : List Char) :
    Except Error (Span × Char) × Nat × Nat :=
  match n, cs with
  | 0, _ =>
    let span : Span := ⟨start, stopSoFar⟩
    if value < 0x110000 ∧ ¬(0xD800 ≤ value ∧ value ≤ 0xDFFF) then
      (.ok (span, Char.ofNat value), pos, 0)
    else if value > 0x10FFFF then (.error (.OutOfRangeUnicodeEscape span), pos, 0)
    else (.error (.SurrogateUnicodeEscape span), pos, 0)
  | _ + 1, [] => (.error (.IncompleteUnicodeEscape ⟨start, stopSoFar⟩), pos, 0)
  | m + 1, c :: rest =>
    let stop1 := pos + 1
    let pos1 := pos + c.utf8Size
    match toDigit16? c with
    | none => (.error (.InvalidCharInUnicodeEscape ⟨start, stop1⟩), pos1, 1)
    | some d =>
      match parseUnicodeEscape start pos1 stop1 m (value * 16 + d) rest with
      | (res, pos2, k) => (res, pos2, k + 1)

/-- Unescape.parse_escape (escape/unescape.rs).  `slashPos` is the byte offset
of the backslash, `pos` the byte offset of the next unread character.
Returns the result, the new byte position, and the number of characters
consumed from `cs`. -/
def parseEscape (slashPos pos : Nat) (cs : List Char) :
    Except Error (Span × Char) × Nat × Nat :=
  match cs with
  | [] => (.error (.LoneSlash ⟨slashPos, slashPos + 1⟩), pos, 0)
  | c :: rest =>
    let span : Span := ⟨slashPos, pos + 1⟩
    let pos1 := pos + c.utf8Size
    if c = 't' then (.ok (span, '\t'), pos1, 1)
    else if c = 'n' then (.ok (span, '\n'), pos1, 1)
    else if c = 'r' then (.ok (span, '\r'), pos1, 1)
    else if c = '"' then (.ok (span, '"'), pos1, 1)
    else if c = '\\' then (.ok (span, '\\'), pos1, 1)
    else if c = 'u' then
      match parseUnicodeEscape slashPos pos1 (pos + 1) 4 0 rest with
      | (res, pos2, k) => (res, pos2, k + 1)
    else if c = 'U' then
      match parseUnicodeEscape slashPos pos1 (pos + 1) 8 0 rest with
      | (res, pos2, k) => (res, pos2, k + 1)
    else (.error (.InvalidEscape span), pos1, 1)

/-- Byte length of the ASCII-whitespace prefix that
Unescape.skip_ascii_whitespace discards. -/
def asciiWsBytes (cs : List Char) : Nat :=
  ((cs.takeWhile isAsciiWhitespace).map Char.utf8Size).sum

theorem dropWhile_length_le (p : Char → Bool) (l : List Char) :
    (l.dropWhile p).length ≤ l.length := by
  induction l with
  | nil => simp [List.dropWhile]
  | cons a l ih =>
    by_cases h : p a
    · simp only [List.dropWhile, h, List.length_cons]
      omega
    · simp [List.dropWhile, h]

/-- The lazy unescape iterator (escape/unescape.rs, `impl Iterator for
Unescape`), unrolled into the full list of produced results, with structural
recursion over a fuel argument so that the definition computes in the kernel.
Each loop iteration consumes at least one character, so `fuel = cs.length`
(see `unescapeAux`) always suffices; `unescapeAux_cons` recovers the
fuel-free unfolding.  `pos` is the byte offset of the head of `cs` within
the original input. -/
def unescapeFuel (mode : Mode) : Nat → Nat → List Char → List (Except Error (Span × Char))
  | _, _, [] => []
  | 0, _, _ :: _ => []
  | fuel + 1, pos, c :: rest =>
    let span : Span := ⟨pos, pos + 1⟩
    let pos1 := pos + c.utf8Size
    if c = '\t' then .ok (span, c) :: unescapeFuel mode fuel pos1 rest
    else if (c = '\n' ∨ c = '\r') ∧ mode = .MultiLine then
      .ok (span, c) :: unescapeFuel mode fuel pos1 rest
    else if isAsciiControl c then .error (.EscapeOnlyChar span) :: unescapeFuel mode fuel pos1 rest
    else if c = '"' ∧ mode = .SingleLine then
      .error (.EscapeOnlyChar span) :: unescapeFuel mode fuel pos1 rest
    else if c = '\\' then
      if mode = .MultiLine ∧ rest.head? = some '\n' then
        unescapeFuel mode fuel (pos1 + asciiWsBytes rest) (rest.dropWhile isAsciiWhitespace)
      else
        match parseEscape pos pos1 rest with
        | (res, pos2, k) => res :: unescapeFuel mode fuel pos2 (rest.drop k)
    else .ok (span, c) :: unescapeFuel mode fuel pos1 rest

/-- The unescape iterator at its canonical fuel. -/
def unescapeAux (mode : Mode) (pos : Nat) (cs : List Char) :
    List (Except Error (Span × Char)) :=
  unescapeFuel mode cs.length pos cs

theorem unescapeFuel_congr (mode : Mode) (f₁ : Nat) :
    ∀ (f₂ pos : Nat) (cs : List Char), cs.length ≤ f₁ → cs.length ≤ f₂ →
      unescapeFuel mode f₁ pos cs = unescapeFuel mode f₂ pos cs := by
  induction f₁ with
  | zero =>
    intro f₂ pos cs h₁ _
    cases cs with
    | nil => simp [unescapeFuel]
    | cons c rest => simp at h₁
  | succ n ih =>
    intro f₂ pos cs h₁ h₂
    cases cs with
    | nil => simp [unescapeFuel]
    | cons c rest =>
      cases f₂ with
      | zero => simp at h₂
      | succ m =>
      simp only [List.length_cons, Nat.add_le_add_iff_right] at h₁ h₂
      show unescapeFuel mode (n + 1) pos (c :: rest) = unescapeFuel mode (m + 1) pos (c :: rest)
      simp only [unescapeFuel]
      have hdw : (rest.dropWhile isAsciiWhitespace).length ≤ rest.length :=
        dropWhile_length_le _ _
      by_cases h1 : c = '\t'
      · simp only [if_pos h1, ih m _ rest h₁ h₂]
      by_cases h2 : (c = '\n' ∨ c = '\r') ∧ mode = .MultiLine
      · simp only [if_neg h1, if_pos h2, ih m _ rest h₁ h₂]
      by_cases h3 : isAsciiControl c
      · simp only [if_neg h1, if_neg h2, if_pos h3, ih m _ rest h₁ h₂]
      by_cases h4 : c = '"' ∧ mode = .SingleLine
      · simp only [if_neg h1, if_neg h2, if_neg h3, if_pos h4, ih m _ rest h₁ h₂]
      by_cases h5 : c = '\\'
      · simp only [if_neg h1, if_neg h2, if_neg h3, if_neg h4, if_pos h5]
        by_cases h6 : mode = .MultiLine ∧ rest.head? = some '\n'
        · simp only [if_pos h6]
          exact ih m _ _ (le_trans hdw h₁) (le_trans hdw h₂)
        · simp only [if_neg h6]
          rcases hpe : parseEscape pos (pos + c.utf8Size) rest with ⟨res, pos2, k⟩
          have hdrop : (rest.drop k).length ≤ rest.length := by
            simp [List.length_drop]
          simp only [ih m _ _ (le_trans hdrop h₁) (le_trans hdrop h₂)]
      · simp only [if_neg h1, if_neg h2, if_neg h3, if_neg h4, if_neg h5,
          ih m _ rest h₁ h₂]

/-- Fuel-free unfolding of one iterator step. -/
theorem unescapeAux_cons (mode : Mode) (pos : Nat) (c : Char) (rest : List Char) :
    unescapeAux mode pos (c :: rest) =
      (let span : Span := ⟨pos, pos + 1⟩
       let pos1 := pos + c.utf8Size
       if c = '\t' then .ok (span, c) :: unescapeAux mode pos1 rest
       else if (c = '\n' ∨ c = '\r') ∧ mode = .MultiLine then
         .ok (span, c) :: unescapeAux mode pos1 rest
       else if isAsciiControl c then .error (.EscapeOnlyChar span) :: unescapeAux mode pos1 rest
       else if c = '"' ∧ mode = .SingleLine then
         .error (.EscapeOnlyChar span) :: unescapeAux mode pos1 rest
       else if c = '\\' then
         if mode = .MultiLine ∧ rest.head? = some '\n' then
           unescapeAux mode (pos1 + asciiWsBytes rest) (rest.dropWhile isAsciiWhitespace)
         else
           match parseEscape pos pos1 rest with
           | (res, pos2, k) => res :: unescapeAux mode pos2 (rest.drop k)
       else .ok (span, c) :: unescapeAux mode pos1 rest) := by
  show unescapeFuel mode (rest.length + 1) pos (c :: rest) = _
  simp only [unescapeFuel, unescapeAux]
  have hdw : (rest.dropWhile isAsciiWhitespace).length ≤ rest.length :=
    dropWhile_length_le _ _
  by_cases h1 : c = '\t'
  · simp [if_pos h1]
  by_cases h2 : (c = '\n' ∨ c = '\r') ∧ mode = .MultiLine
  · simp [if_neg h1, if_pos h2]
  by_cases h3 : isAsciiControl c
  · simp [if_neg h1, if_neg h2, if_pos h3]
  by_cases h4 : c = '"' ∧ mode = .SingleLine
  · simp [if_neg h1, if_neg h2, if_neg h3, if_pos h4]
  by_cases h5 : c = '\\'
  · simp only [if_neg h1, if_neg h2, if_neg h3, if_neg h4, if_pos h5]
    by_cases h6 : mode = .MultiLine ∧ rest.head? = some '\n'
    · simp only [if_pos h6]
      exact unescapeFuel_congr mode rest.length _ _ _ hdw le_rfl
    · simp only [if_neg h6]
      rcases hpe : parseEscape pos (pos + c.utf8Size) rest with ⟨res, pos2, k⟩
      have hdrop : (rest.drop k).length ≤ rest.length := by
        simp [List.length_drop]
      simp only [unescapeFuel_congr mode rest.length _ _ _ hdrop le_rfl]
  · simp [if_neg h1, if_neg h2, if_neg h3, if_neg h4, if_neg h5]

/-- Public `unescape` (escape/unescape.rs): the span is dropped, each element
is a `Result<char>`. -/
def unescape (input : List Char) (mode : Mode) : List (Except Error Char) :=
  (unescapeAux mode 0 input).map (fun r => r.map Prod.snd)

/-- Rust `collect::<Result<Vec<_>>>` / `collect::<Result<String>>`: stops at
the first error. -/
def collectResults {α : Type} : List (Except Error α) → Except Error (List α)
  | [] => .ok []
  | .error e :: _ => .error e
  | .ok a :: rest => (collectResults rest).map (a :: ·)

/-- EscapeUnicode (escape/escape.rs): the `\u`/`\U` numeric escape for one
character, most significant nibble first, lowercase hex. -/
def escapeUnicode (c : Char) : List Char :=
  let v := c.toNat
  let bitIndex := Nat.log2 (v ||| 1)
  let hexDigitIndex := bitIndex / 4
  let index := if hexDigitIndex < 4 then 3 else 7
  '\\' :: (if index < 4 then 'u' else 'U') ::
    ((List.range (index + 1)).reverse.map fun k => Nat.digitChar ((v >>> (k * 4)) &&& 0xF))

/-- Escape::new (escape/escape.rs) followed by full iteration: the characters
produced for one input character. -/
def escapeChar (c : Char) (mode : Mode) : List Char :=
  if c = '\t' then [c]
  else if c = '\n' then
    match mode with
    | .SingleLine => ['\\', 'n']
    | .MultiLine => [c]
  else if c = '\r' then
    match mode with
    | .SingleLine => ['\\', 'r']
    | .MultiLine => [c]
  else if isAsciiControl c then escapeUnicode c
  else if c = '"' ∧ mode = .SingleLine then ['\\', c]
  else if c = '\\' then ['\\', c]
  else [c]

/-- Public `escape` (escape/escape.rs): flat_map of `Escape::new` over the
characters of the input. -/
def escape (input : List Char) (mode : Mode) : List Char :=
  input.flatMap (escapeChar · mode)

theorem or_one_ne_zero (v : Nat) : v ||| 1 ≠ 0 := by
  intro h
  have := congrArg (Nat.testBit · 0) h
  simp at this

theorem and15_eq_mod (n : Nat) : n &&& 15 = n % 16 := by
  have h := Nat.and_pow_two_sub_one_eq_mod n 4
  norm_num at h
  exact h

theorem shift_and15 (v k : Nat) : v >>> k &&& 15 = v / 2 ^ k % 16 := by
  rw [and15_eq_mod, Nat.shiftRight_eq_div_pow]

theorem toDigit16_digitChar (d : Nat) (h : d < 16) : toDigit16? (Nat.digitChar d) = some d := by
  interval_cases d <;> rfl

theorem digitChar_utf8Size (d : Nat) (h : d < 16) : (Nat.digitChar d).utf8Size = 1 := by
  interval_cases d <;> rfl

/-- For characters below 128 (all ASCII controls), EscapeUnicode produces a
4-digit `\u` escape. -/
theorem escapeUnicode_le127 (c : Char) (h : c.toNat ≤ 127) :
    escapeUnicode c =
      ['\\', 'u', Nat.digitChar (c.toNat / 4096 % 16), Nat.digitChar (c.toNat / 256 % 16),
       Nat.digitChar (c.toNat / 16 % 16), Nat.digitChar (c.toNat % 16)] := by
  have h2 : c.toNat ||| 1 < 2 ^ 8 := Nat.or_lt_two_pow (by omega) (by norm_num)
  have h1 : c.toNat ||| 1 ≠ 0 := or_one_ne_zero _
  have h3 : Nat.log2 (c.toNat ||| 1) < 8 := (Nat.log2_lt h1).mpr h2
  have h4 : Nat.log2 (c.toNat ||| 1) / 4 < 4 := by omega
  simp only [escapeUnicode, if_pos h4]
  norm_num [List.range_succ, shift_and15]

/-- Running parse_unicode_escape over the four hex digits that EscapeUnicode
emits for a scalar below the surrogate range reconstructs the character. -/
theorem parseUnicodeEscape_hex4 (s p e : Nat) (v : Nat) (hv : v < 0xD800) (tail : List Char) :
    parseUnicodeEscape s p e 4 0
      (Nat.digitChar (v / 4096 % 16) :: Nat.digitChar (v / 256 % 16) ::
       Nat.digitChar (v / 16 % 16) :: Nat.digitChar (v % 16) :: tail) =
      (.ok (⟨s, p + 4⟩, Char.ofNat v), p + 4, 4) := by
  have d3 : v / 4096 % 16 < 16 := Nat.mod_lt _ (by norm_num)
  have d2 : v / 256 % 16 < 16 := Nat.mod_lt _ (by norm_num)
  have d1 : v / 16 % 16 < 16 := Nat.mod_lt _ (by norm_num)
  have d0 : v % 16 < 16 := Nat.mod_lt _ (by norm_num)
  simp only [parseUnicodeEscape, toDigit16_digitChar _ d3, toDigit16_digitChar _ d2,
    toDigit16_digitChar _ d1, toDigit16_digitChar _ d0, digitChar_utf8Size _ d3,
    digitChar_utf8Size _ d2, digitChar_utf8Size _ d1, digitChar_utf8Size _ d0]
  have hval : (((0 * 16 + v / 4096 % 16) * 16 + v / 256 % 16) * 16 + v / 16 % 16) * 16 + v % 16
      = v := by omega
  rw [hval, if_pos (by omega)]

theorem utf8Size_tab : ('\t' : Char).utf8Size = 1 := by decide

theorem utf8Size_lf : ('\n' : Char).utf8Size = 1 := by decide

theorem utf8Size_cr : ('\r' : Char).utf8Size = 1 := by decide

theorem utf8Size_bs : ('\\' : Char).utf8Size = 1 := by decide

theorem utf8Size_quot : ('"' : Char).utf8Size = 1 := by decide

theorem utf8Size_letter_n : ('n' : Char).utf8Size = 1 := by decide

theorem utf8Size_letter_r : ('r' : Char).utf8Size = 1 := by decide

theorem utf8Size_letter_u : ('u' : Char).utf8Size = 1 := by decide

/-- One escaped character unescapes back to itself, regardless of what
follows (the escape-then-unescape step lemma). -/
theorem unescapeAux_escapeChar (m : Mode) (pos : Nat) (c : Char) (tail : List Char) :
    ∃ pos' sp, unescapeAux m pos (escapeChar c m ++ tail) =
      .ok (sp, c) :: unescapeAux m pos' tail := by
  by_cases h1 : c = '\t'
  · subst h1
    refine ⟨pos + 1, ⟨pos, pos + 1⟩, ?_⟩
    rw [show escapeChar '\t' m = ['\t'] from by simp [escapeChar]]
    rw [List.singleton_append, unescapeAux_cons]
    simp +decide [utf8Size_tab]
  by_cases h2 : c = '\n'
  · subst h2
    cases m with
    | SingleLine =>
      refine ⟨pos + 1 + 1, ⟨pos, pos + 1 + 1⟩, ?_⟩
      rw [show escapeChar '\n' Mode.SingleLine = ['\\', 'n'] from by simp +decide [escapeChar]]
      rw [List.cons_append, List.singleton_append, unescapeAux_cons]
      simp +decide [utf8Size_bs, utf8Size_letter_n, parseEscape]
    | MultiLine =>
      refine ⟨pos + 1, ⟨pos, pos + 1⟩, ?_⟩
      rw [show escapeChar '\n' Mode.MultiLine = ['\n'] from by simp +decide [escapeChar]]
      rw [List.singleton_append, unescapeAux_cons]
      simp +decide [utf8Size_lf]
  by_cases h3 : c = '\r'
  · subst h3
    cases m with
    | SingleLine =>
      refine ⟨pos + 1 + 1, ⟨pos, pos + 1 + 1⟩, ?_⟩
      rw [show escapeChar '\r' Mode.SingleLine = ['\\', 'r'] from by simp +decide [escapeChar]]
      rw [List.cons_append, List.singleton_append, unescapeAux_cons]
      simp +decide [utf8Size_bs, utf8Size_letter_r, parseEscape]
    | MultiLine =>
      refine ⟨pos + 1, ⟨pos, pos + 1⟩, ?_⟩
      rw [show escapeChar '\r' Mode.MultiLine = ['\r'] from by simp +decide [escapeChar]]
      rw [List.singleton_append, unescapeAux_cons]
      simp +decide [utf8Size_cr]
  by_cases h4 : isAsciiControl c
  · have h127 : c.toNat ≤ 127 := by
      simp [isAsciiControl] at h4
      omega
    have hesc : escapeChar c m = escapeUnicode c := by
      simp only [escapeChar, if_neg h1, if_neg h2, if_neg h3, if_pos h4]
    refine ⟨pos + 1 + 1 + 4, ⟨pos, pos + 1 + 1 + 4⟩, ?_⟩
    rw [hesc, escapeUnicode_le127 c h127]
    rw [List.cons_append, List.cons_append, List.cons_append, List.cons_append,
      List.cons_append, List.singleton_append, unescapeAux_cons]
    have hpe : parseEscape pos (pos + ('\\' : Char).utf8Size)
        ('u' :: Nat.digitChar (c.toNat / 4096 % 16) :: Nat.digitChar (c.toNat / 256 % 16) ::
          Nat.digitChar (c.toNat / 16 % 16) :: Nat.digitChar (c.toNat % 16) :: tail) =
        (.ok (⟨pos, pos + 1 + 1 + 4⟩, c), pos + 1 + 1 + 4, 4 + 1) := by
      rw [utf8Size_bs]
      simp +decide [parseEscape, utf8Size_letter_u]
      rw [parseUnicodeEscape_hex4 pos (pos + 1 + 1) (pos + 1 + 1) c.toNat (by omega) tail]
      rw [Char.ofNat_toNat]
      exact ⟨rfl, rfl, rfl⟩
    simp +decide [hpe]
  by_cases h5 : c = '"'
  · subst h5
    cases m with
    | SingleLine =>
      refine ⟨pos + 1 + 1, ⟨pos, pos + 1 + 1⟩, ?_⟩
      rw [show escapeChar '"' Mode.SingleLine = ['\\', '"'] from by simp +decide [escapeChar]]
      rw [List.cons_append, List.singleton_append, unescapeAux_cons]
      simp +decide [utf8Size_bs, utf8Size_quot, parseEscape]
    | MultiLine =>
      refine ⟨pos + 1, ⟨pos, pos + 1⟩, ?_⟩
      rw [show escapeChar '"' Mode.MultiLine = ['"'] from by simp +decide [escapeChar]]
      rw [List.singleton_append, unescapeAux_cons]
      simp +decide [utf8Size_quot]
  by_cases h6 : c = '\\'
  · subst h6
    refine ⟨pos + 1 + 1, ⟨pos, pos + 1 + 1⟩, ?_⟩
    rw [show escapeChar '\\' m = ['\\', '\\'] from by
      simp +decide [escapeChar]]
    rw [List.cons_append, List.singleton_append, unescapeAux_cons]
    simp +decide [utf8Size_bs, parseEscape]
  · refine ⟨pos + c.utf8Size, ⟨pos, pos + 1⟩, ?_⟩
    rw [show escapeChar c m = [c] from by
      simp only [escapeChar, if_neg h1, if_neg h2, if_neg h3, if_neg h4, if_neg h6]
      rw [if_neg (by rintro ⟨h, -⟩; exact h5 h)]]
    rw [List.singleton_append, unescapeAux_cons]
    rw [if_neg h1]
    rw [if_neg (by rintro ⟨h, -⟩; rcases h with h | h; exact h2 h; exact h3 h)]
    rw [if_neg (by simpa using h4)]
    rw [if_neg (by rintro ⟨h, -⟩; exact h5 h)]
    rw [if_neg h6]

/-- Unescaping the escaped form of `s` recovers exactly `s`, from any
starting byte position. -/
theorem roundtrip_aux (m : Mode) (s : List Char) :
    ∀ pos, collectResults ((unescapeAux m pos (escape s m)).map (fun r => r.map Prod.snd)) =
      .ok s := by
  induction s with
  | nil =>
    intro pos
    simp [escape, unescapeAux, unescapeFuel, collectResults]
  | cons c s ih =>
    intro pos
    rcases unescapeAux_escapeChar m pos c (escape s m) with ⟨pos', sp, hstep⟩
    rw [show escape (c :: s) m = escapeChar c m ++ escape s m from rfl, hstep]
    simp only [List.map_cons]
    show collectResults ((Except.ok c : Except Error Char) ::
      (unescapeAux m pos' (escape s m)).map (fun r => r.map Prod.snd)) = _
    rw [show collectResults ((Except.ok c : Except Error Char) ::
        (unescapeAux m pos' (escape s m)).map (fun r => r.map Prod.snd)) =
      (collectResults ((unescapeAux m pos' (escape s m)).map
        (fun r => r.map Prod.snd))).map (c :: ·) from rfl]
    rw [ih pos']
    rfl

theorem utf8Size_ascii (c : Char) (h : c.toNat ≤ 127) : c.utf8Size = 1 := by
  have hv : c.val ≤ 0x7F := UInt32.le_def.mpr (by simpa using h)
  simp [Char.utf8Size, hv]

/-- C2: for every string `s` and every mode `m`, collecting the characters
produced by `unescape (escape s m) m` never yields an error and the collected
text equals `s`.  Proved for all `s`, which subsumes the claimed-safe set. -/
theorem escape_unescape_roundtrip (s : List Char) (m : Mode) :
    collectResults (unescape (escape s m) m) = .ok s :=
  roundtrip_aux m s 0

/-- C6: tab passes through literally in both modes; LF and CR pass through
literally only in MultiLine and are rejected as EscapeOnlyChar in SingleLine
(for input "a\nb" in SingleLine the error span is [1,2)); every other ASCII
control character is rejected as EscapeOnlyChar in both modes; an unescaped
double quote is rejected in SingleLine and passes through in MultiLine. -/
theorem unescape_literal_char_handling :
    (∀ (m : Mode) (pos : Nat) (rest : List Char),
      unescapeAux m pos ('\t' :: rest) =
        .ok (⟨pos, pos + 1⟩, '\t') :: unescapeAux m (pos + 1) rest)
    ∧ (∀ (c : Char) (pos : Nat) (rest : List Char), c = '\n' ∨ c = '\r' →
      unescapeAux Mode.MultiLine pos (c :: rest) =
        .ok (⟨pos, pos + 1⟩, c) :: unescapeAux Mode.MultiLine (pos + 1) rest)
    ∧ (∀ (c : Char) (pos : Nat) (rest : List Char), c = '\n' ∨ c = '\r' →
      unescapeAux Mode.SingleLine pos (c :: rest) =
        .error (.EscapeOnlyChar ⟨pos, pos + 1⟩) :: unescapeAux Mode.SingleLine (pos + 1) rest)
    ∧ (∀ (c : Char) (m : Mode) (pos : Nat) (rest : List Char),
        isAsciiControl c → c ≠ '\t' → c ≠ '\n' → c ≠ '\r' →
      unescapeAux m pos (c :: rest) =
        .error (.EscapeOnlyChar ⟨pos, pos + 1⟩) :: unescapeAux m (pos + 1) rest)
    ∧ (∀ (pos : Nat) (rest : List Char),
      unescapeAux Mode.SingleLine pos ('"' :: rest) =
        .error (.EscapeOnlyChar ⟨pos, pos + 1⟩) :: unescapeAux Mode.SingleLine (pos + 1) rest)
    ∧ (∀ (pos : Nat) (rest : List Char),
      unescapeAux Mode.MultiLine pos ('"' :: rest) =
        .ok (⟨pos, pos + 1⟩, '"') :: unescapeAux Mode.MultiLine (pos + 1) rest)
    ∧ collectResults (unescape "a\nb".toList Mode.SingleLine) =
        .error (.EscapeOnlyChar ⟨1, 2⟩) := by
  refine ⟨?_, ?_, ?_, ?_, ?_, ?_, by decide⟩
  · intro m pos rest
    rw [unescapeAux_cons]
    simp +decide [utf8Size_tab]
  · intro c pos rest h
    rw [unescapeAux_cons]
    rcases h with h | h <;> subst h <;> simp +decide [utf8Size_lf, utf8Size_cr]
  · intro c pos rest h
    rw [unescapeAux_cons]
    rcases h with h | h <;> subst h <;> simp +decide [utf8Size_lf, utf8Size_cr]
  · intro c m pos rest hctl h1 h2 h3
    have h127 : c.toNat ≤ 127 := by
      simp [isAsciiControl] at hctl
      omega
    rw [unescapeAux_cons, utf8Size_ascii c h127]
    rw [if_neg h1]
    rw [if_neg (by rintro ⟨h, -⟩; rcases h with h | h; exact h2 h; exact h3 h)]
    rw [if_pos (by simpa using hctl)]
  · intro pos rest
    rw [unescapeAux_cons]
    simp +decide [utf8Size_quot]
  · intro pos rest
    rw [unescapeAux_cons]
    simp +decide [utf8Size_quot]

theorem unescape_literal_char_handling_witness :
    unescapeAux Mode.SingleLine 0 ['\n'] =
      .error (.EscapeOnlyChar ⟨0, 1⟩) :: unescapeAux Mode.SingleLine 1 [] :=
  unescape_literal_char_handling.2.2.1 '\n' 0 [] (Or.inl rfl)

/-- C7 counterexample: the InvalidEscape error for the two-character escape
sequence backslash + U+00E9 carries the span [0,2), but the sequence
occupies the byte range [0,3) (the second character is 2 bytes long), so
the span is not exactly the byte span of the offending escape sequence. -/
theorem escape_error_span_counterexample :
    collectResults (unescape ['\\', 'é'] Mode.SingleLine) =
      .error (.InvalidEscape ⟨0, 2⟩)
    ∧ (['\\', 'é'].map Char.utf8Size).sum = 3 ∧ (2 : Nat) ≠ 3 := by
  decide

/-- C7 (amended): the escape-error taxonomy of parse_escape and
parse_unicode_escape.  Digits running out yields IncompleteUnicodeEscape, a
non-hex digit yields InvalidCharInUnicodeEscape, a surrogate codepoint yields
SurrogateUnicodeEscape, a codepoint above 0x10FFFF yields
OutOfRangeUnicodeEscape, an unrecognized escape letter yields InvalidEscape,
a trailing backslash yields LoneSlash.  Every error span starts at the byte
offset of the backslash; its end is one byte past the byte offset at which
the last examined character starts, which is exactly the end of the
offending escape sequence whenever that character is ASCII
(e.g. "a\ud800b" fails with SurrogateUnicodeEscape at span [1,7) in both
modes). -/
theorem escape_error_taxonomy :
    (∀ s p, parseEscape s p [] = (.error (.LoneSlash ⟨s, s + 1⟩), p, 0))
    ∧ (∀ s p (c : Char) rest, c ≠ 't' → c ≠ 'n' → c ≠ 'r' → c ≠ '"' → c ≠ '\\' →
        c ≠ 'u' → c ≠ 'U' →
        parseEscape s p (c :: rest) = (.error (.InvalidEscape ⟨s, p + 1⟩), p + c.utf8Size, 1))
    ∧ (∀ s p e n v, parseUnicodeEscape s p e (n + 1) v [] =
        (.error (.IncompleteUnicodeEscape ⟨s, e⟩), p, 0))
    ∧ (∀ s p e n v (c : Char) rest, toDigit16? c = none →
        parseUnicodeEscape s p e (n + 1) v (c :: rest) =
          (.error (.InvalidCharInUnicodeEscape ⟨s, p + 1⟩), p + c.utf8Size, 1))
    ∧ (∀ s p e v (cs : List Char), 0xD800 ≤ v → v ≤ 0xDFFF →
        parseUnicodeEscape s p e 0 v cs = (.error (.SurrogateUnicodeEscape ⟨s, e⟩), p, 0))
    ∧ (∀ s p e v (cs : List Char), 0x10FFFF < v →
        parseUnicodeEscape s p e 0 v cs = (.error (.OutOfRangeUnicodeEscape ⟨s, e⟩), p, 0))
    ∧ collectResults (unescape "a\\ud800b".toList Mode.SingleLine) =
        .error (.SurrogateUnicodeEscape ⟨1, 7⟩)
    ∧ collectResults (unescape "a\\ud800b".toList Mode.MultiLine) =
        .error (.SurrogateUnicodeEscape ⟨1, 7⟩) := by
  refine ⟨?_, ?_, ?_, ?_, ?_, ?_, by decide, by decide⟩
  · intro s p
    rfl
  · intro s p c rest h1 h2 h3 h4 h5 h6 h7
    simp only [parseEscape]
    rw [if_neg h1, if_neg h2, if_neg h3, if_neg h4, if_neg h5, if_neg h6, if_neg h7]
  · intro s p e n v
    rfl
  · intro s p e n v c rest h
    simp only [parseUnicodeEscape, h]
  · intro s p e v cs h1 h2
    simp only [parseUnicodeEscape]
    rw [if_neg (by omega), if_neg (by omega)]
  · intro s p e v cs h
    simp only [parseUnicodeEscape]
    rw [if_neg (by omega), if_pos (by omega)]

theorem escape_error_taxonomy_witness :
    parseEscape 0 1 ['x'] = (.error (.InvalidEscape ⟨0, 2⟩), 2, 1) :=
  (escape_error_taxonomy.2.1 0 1 'x' [] (by decide) (by decide) (by decide) (by decide)
    (by decide) (by decide) (by decide)).trans (by decide)

/-- C8: in MultiLine mode, a backslash immediately followed by a line feed
produces zero output characters: the newline and all immediately following
ASCII whitespace are discarded and scanning resumes at the next
non-whitespace byte. -/
theorem unescape_line_continuation :
    (∀ (pos : Nat) (rest : List Char), rest.head? = some '\n' →
      unescapeAux Mode.MultiLine pos ('\\' :: rest) =
        unescapeAux Mode.MultiLine (pos + 1 + asciiWsBytes rest)
          (rest.dropWhile isAsciiWhitespace))
    ∧ collectResults (unescape "a\\\n    \t\n    b".toList Mode.MultiLine) =
        .ok "ab".toList := by
  refine ⟨?_, by decide⟩
  intro pos rest h
  rw [unescapeAux_cons, utf8Size_bs]
  rw [if_neg (by decide), if_neg (by rintro ⟨h, -⟩; revert h; decide), if_neg (by decide),
    if_neg (by rintro ⟨h, -⟩; revert h; decide), if_pos rfl, if_pos ⟨rfl, h⟩]

theorem unescape_line_continuation_witness :
    unescapeAux Mode.MultiLine 0 ['\\', '\n', ' ', 'b'] =
      unescapeAux Mode.MultiLine (0 + 1 + asciiWsBytes ['\n', ' ', 'b'])
        (List.dropWhile isAsciiWhitespace ['\n', ' ', 'b']) :=
  unescape_line_continuation.1 0 ['\n', ' ', 'b'] rfl

example : escape "a\nb".toList Mode.SingleLine = "a\\nb".toList := by decide
example : escape "a\nb".toList Mode.MultiLine = "a\nb".toList := by decide
example : collectResults (unescape "a\tb".toList Mode.SingleLine) = .ok "a\tb".toList := by decide
example : collectResults (unescape "a\nb".toList Mode.SingleLine) =
    .error (.EscapeOnlyChar ⟨1, 2⟩) := by decide
example : collectResults (unescape "a\\ud800b".toList Mode.SingleLine) =
    .error (.SurrogateUnicodeEscape ⟨1, 7⟩) := by decide
example : collectResults (unescape "a\\U00110000b".toList Mode.MultiLine) =
    .error (.OutOfRangeUnicodeEscape ⟨1, 11⟩) := by decide
example : collectResults (unescape "a\\\n    \t\n    b".toList Mode.MultiLine) =
    .ok "ab".toList := by decide
example : collectResults (unescape "a\\b".toList Mode.SingleLine) =
    .error (.InvalidEscape ⟨1, 3⟩) := by decide

/-- Comment kind (comment.rs `Kind<T>`): a comment on its own line before a
declaration (`Pre`) or trailing a declaration on the same line (`Post`). -/
inductive CommentKind (T : Type) where
  | Pre (t : T)
  | Post (t : T)
deriving DecidableEq, Repr

/-- One comment (comment.rs `Comment = Kind<String>`). -/
abbrev Comment := CommentKind String

/-- Ordered comment list (comment.rs `Comments`, a `Vec<Comment>`). -/
abbrev Comments := List Comment

mutual

/-- Document value (value.rs `Value`): Primitive, Array (`Vec<Item>`) or
Table (`IndexMap<String, Item>`, an insertion-ordered map with unique keys,
embedded as an association list).  The payload of value.rs `Primitive`
(String / Integer / Float / Boolean / DateTime) is kept abstract as the
type parameter `P`: no operation verified here inspects it, and its textual
formatting is delegated to external Display implementations. -/
inductive Value (P : Type) where
  | Primitive (p : P)
  | Array (items : List (Item P))
  | Table (entries : List (String × Item P))

/-- Item (value.rs `Item`): an owned pair of comments and a value. -/
inductive Item (P : Type) where
  | mk (comments : Comments) (value : Value P)

end

def Item.comments {P : Type} : Item P → Comments
  | .mk cs _ => cs

def Item.value {P : Type} : Item P → Value P
  | .mk _ v => v

/-- `Item::from(Value)` (value.rs): empty comments. -/
def Item.fromValue {P : Type} (v : Value P) : Item P :=
  .mk [] v

mutual

/-- Structural size of a value (an embedding device: it bounds the recursion
depth of the fuel-based merge below and is itself computable). -/
def Value.size {P : Type} : Value P → Nat
  | .Primitive _ => 1
  | .Array l => 1 + itemsSize l
  | .Table l => 1 + entriesSize l

def Item.size {P : Type} : Item P → Nat
  | .mk _ v => 1 + Value.size v

def itemsSize {P : Type} : List (Item P) → Nat
  | [] => 0
  | it :: rest => Item.size it + itemsSize rest

def entriesSize {P : Type} : List (String × Item P) → Nat
  | [] => 0
  | (_, it) :: rest => Item.size it + entriesSize rest

end

/-- The keys of a table, in insertion order. -/
def tableKeys {P : Type} (t : List (String × Item P)) : List String :=
  t.map Prod.fst

/-- `IndexMap::get` (first entry with the key; keys are unique). -/
def lookup? {P : Type} (t : List (String × Item P)) (k : String) : Option (Item P) :=
  (t.find? (fun e => e.1 == k)).map Prod.snd

/-- In-place update of the entry holding key `k` (the effect of
`IndexMap::get_mut` followed by mutation: position and stored key are
unchanged). -/
def replaceFirst {P : Type} (t : List (String × Item P)) (k : String) (it : Item P) :
    List (String × Item P) :=
  match t with
  | [] => []
  | (k', it') :: rest =>
    if k' == k then (k', it) :: rest else (k', it') :: replaceFirst rest k it

/-- One step of `Merge for Table` (merge.rs, loop body): if the key exists
the values are merged (by the supplied value-merge function `vm`) and the
incoming comments are appended after the existing ones; otherwise the pair
is inserted at the end (`IndexMap::insert` on a fresh key appends). -/
def entryMergeWith {P : Type} (vm : Value P → Value P → Option (Value P))
    (t : List (String × Item P)) (k : String) (it : Item P) :
    Option (List (String × Item P)) :=
  match t.find? (fun e => e.1 == k) with
  | some (_, it') =>
    (vm it'.value it.value).map fun v =>
      replaceFirst t k (.mk (it'.comments ++ it.comments) v)
  | none => some (t ++ [(k, it)])

/-- `Merge for Table` (merge.rs): fold the incoming entries, in incoming
order, into the target. -/
def tableMergeWith {P : Type} (vm : Value P → Value P → Option (Value P)) :
    List (String × Item P) → List (String × Item P) → Option (List (String × Item P))
  | t, [] => some t
  | t, (k, it) :: rest =>
    (entryMergeWith vm t k it).bind fun t2 => tableMergeWith vm t2 rest

/-- `Merge for Value` (merge.rs), with a structural fuel so the definition
computes in the kernel: dispatch on the target's shape; the panics of the
reference implementation ("Can't merge a primitive value.", mismatched
shapes) are modeled as `none`.  Each level of recursion into a nested
incoming table consumes one unit of fuel, so `Value.size incoming` (see
`Value.merge`) always suffices; `Value.merge_eq` recovers the fuel-free
unfolding. -/
def valueMergeF {P : Type} : Nat → Value P → Value P → Option (Value P)
  | 0, _, _ => none
  | f + 1, target, incoming =>
    match target with
    | .Table t =>
      match incoming with
      | .Table t2 => (tableMergeWith (valueMergeF f) t t2).map Value.Table
      | _ => none
    | .Array a =>
      match incoming with
      | .Array a2 => some (.Array (a ++ a2))
      | _ => none
    | .Primitive _ => none

/-- `Value::merge` at its canonical fuel. -/
def Value.merge {P : Type} (target incoming : Value P) : Option (Value P) :=
  valueMergeF (Value.size incoming) target incoming

/-- `Merge for Table` on a `Value` argument (merge.rs line 19): panics
unless the incoming value is a table. -/
def Table.merge {P : Type} (t : List (String × Item P)) (incoming : Value P) :
    Option (List (String × Item P)) :=
  match incoming with
  | .Table t2 => tableMergeWith (fun a b => Value.merge a b) t t2
  | _ => none

theorem value_size_pos {P : Type} (v : Value P) : 0 < Value.size v := by
  cases v <;> simp [Value.size]

theorem item_value_size_lt {P : Type} (it : Item P) : Value.size it.value < Item.size it := by
  cases it with
  | mk cs v => simp [Item.value, Item.size]

theorem item_size_le_of_mem {P : Type} (l : List (String × Item P)) (k : String) (it : Item P)
    (h : (k, it) ∈ l) : Item.size it ≤ entriesSize l := by
  induction l with
  | nil => cases h
  | cons e rest ih =>
    rcases e with ⟨k0, it0⟩
    rcases List.mem_cons.mp h with h | h
    · have h2 := congrArg Prod.snd h
      simp only at h2
      rw [h2]
      simp [entriesSize]
    · have := ih h
      simp [entriesSize]
      omega

theorem entryMergeWith_congr {P : Type} (vm₁ vm₂ : Value P → Value P → Option (Value P))
    (t : List (String × Item P)) (k : String) (it : Item P)
    (h : ∀ a, vm₁ a it.value = vm₂ a it.value) :
    entryMergeWith vm₁ t k it = entryMergeWith vm₂ t k it := by
  unfold entryMergeWith
  cases hf : t.find? (fun e => e.1 == k) with
  | none => rfl
  | some e =>
    rcases e with ⟨k1, it1⟩
    show (vm₁ it1.value it.value).map _ = (vm₂ it1.value it.value).map _
    rw [h]

theorem tableMergeWith_congr {P : Type} (vm₁ vm₂ : Value P → Value P → Option (Value P))
    (l : List (String × Item P))
    (h : ∀ a b, (∃ k it, (k, it) ∈ l ∧ b = it.value) → vm₁ a b = vm₂ a b) :
    ∀ t, tableMergeWith vm₁ t l = tableMergeWith vm₂ t l := by
  induction l with
  | nil => intro t; rfl
  | cons e rest ih =>
    intro t
    rcases e with ⟨k, it⟩
    show (entryMergeWith vm₁ t k it).bind _ = (entryMergeWith vm₂ t k it).bind _
    rw [entryMergeWith_congr vm₁ vm₂ t k it
      (fun a => h a it.value ⟨k, it, List.mem_cons_self _ _, rfl⟩)]
    cases entryMergeWith vm₂ t k it with
    | none => rfl
    | some t2 =>
      show tableMergeWith vm₁ t2 rest = tableMergeWith vm₂ t2 rest
      exact ih (fun a b hb => h a b (by
        rcases hb with ⟨k1, it1, hm, hbv⟩
        exact ⟨k1, it1, List.mem_cons_of_mem _ hm, hbv⟩)) t2

theorem valueMergeF_congr {P : Type} :
    ∀ (f₁ f₂ : Nat) (a b : Value P), Value.size b ≤ f₁ → Value.size b ≤ f₂ →
      valueMergeF f₁ a b = valueMergeF f₂ a b := by
  intro f₁
  induction f₁ with
  | zero =>
    intro f₂ a b h₁ h₂
    have := value_size_pos b
    omega
  | succ n ih =>
    intro f₂ a b h₁ h₂
    cases f₂ with
    | zero =>
      have := value_size_pos b
      omega
    | succ m =>
      show valueMergeF (n + 1) a b = valueMergeF (m + 1) a b
      cases a with
      | Primitive p => rfl
      | Array l => cases b <;> rfl
      | Table t =>
        cases b with
        | Primitive p => rfl
        | Array l => rfl
        | Table t2 =>
          show (tableMergeWith (valueMergeF n) t t2).map Value.Table =
            (tableMergeWith (valueMergeF m) t t2).map Value.Table
          rw [tableMergeWith_congr (valueMergeF n) (valueMergeF m) t2 ?_ t]
          rintro a b ⟨k, it, hm, rfl⟩
          have h1 := item_value_size_lt it
          have h2 := item_size_le_of_mem t2 k it hm
          have hsz : Value.size (Value.Table t2) = 1 + entriesSize t2 := by simp [Value.size]
          exact ih m a it.value (by omega) (by omega)

/-- Fuel-free unfolding of `Value::merge`. -/
theorem Value.merge_eq {P : Type} (target incoming : Value P) :
    Value.merge target incoming =
      (match target, incoming with
       | .Table t, .Table t2 => (tableMergeWith (fun a b => Value.merge a b) t t2).map Value.Table
       | .Array a, .Array a2 => some (.Array (a ++ a2))
       | .Table _, _ => none
       | .Array _, _ => none
       | .Primitive _, _ => none) := by
  show valueMergeF (Value.size incoming) target incoming = _
  rcases Nat.exists_eq_add_of_lt (value_size_pos incoming) with ⟨j, hj⟩
  rw [show Value.size incoming = j + 1 by omega]
  cases target with
  | Primitive p => rfl
  | Array l => cases incoming <;> rfl
  | Table t =>
    cases incoming with
    | Primitive p => rfl
    | Array l => rfl
    | Table t2 =>
      have hjval : j = entriesSize t2 := by
        simp [Value.size] at hj
        omega
      show (tableMergeWith (valueMergeF j) t t2).map Value.Table = _
      rw [tableMergeWith_congr (valueMergeF j)
        (fun a b => Value.merge a b) t2 ?_ t]
      rintro a b ⟨k, it, hm, rfl⟩
      have h1 := item_value_size_lt it
      have h2 := item_size_le_of_mem t2 k it hm
      show valueMergeF j a it.value = valueMergeF (Value.size it.value) a it.value
      exact valueMergeF_congr _ _ a it.value (by omega) (by omega)


theorem lookup?_cons_self {P : Type} (k : String) (it : Item P)
    (rest : List (String × Item P)) : lookup? ((k, it) :: rest) k = some it := by
  unfold lookup?
  rw [List.find?_cons_of_pos _ (by simp)]
  rfl

theorem lookup?_cons_ne {P : Type} (k0 k : String) (it0 : Item P)
    (rest : List (String × Item P)) (h : k ≠ k0) :
    lookup? ((k0, it0) :: rest) k = lookup? rest k := by
  unfold lookup?
  rw [List.find?_cons_of_neg _ (by simp only [beq_iff_eq]; exact fun hk => h hk.symm)]

theorem lookup?_eq_none_iff {P : Type} (t : List (String × Item P)) (k : String) :
    lookup? t k = none ↔ k ∉ tableKeys t := by
  induction t with
  | nil => simp [lookup?, tableKeys]
  | cons e rest ih =>
    rcases e with ⟨k0, it0⟩
    by_cases h : k = k0
    · subst h
      rw [lookup?_cons_self]
      simp [tableKeys]
    · rw [lookup?_cons_ne _ _ _ _ h, ih]
      simp only [tableKeys, List.map_cons, List.mem_cons]
      constructor
      · intro hk hm
        rcases hm with hm | hm
        · exact h hm
        · exact hk hm
      · intro hk hm
        exact hk (Or.inr hm)

theorem lookup?_append_right {P : Type} (t l : List (String × Item P)) (k : String)
    (h : lookup? t k = none) : lookup? (t ++ l) k = lookup? l k := by
  induction t with
  | nil => simp
  | cons e rest ih =>
    rcases e with ⟨k0, it0⟩
    by_cases hk : k = k0
    · subst hk
      rw [lookup?_cons_self] at h
      cases h
    · rw [lookup?_cons_ne _ _ _ _ hk] at h
      rw [List.cons_append, lookup?_cons_ne _ _ _ _ hk]
      exact ih h

theorem lookup?_append_left {P : Type} (t l : List (String × Item P)) (k : String)
    (it : Item P) (h : lookup? t k = some it) : lookup? (t ++ l) k = some it := by
  induction t with
  | nil => simp [lookup?] at h
  | cons e rest ih =>
    rcases e with ⟨k0, it0⟩
    by_cases hk : k = k0
    · subst hk
      rw [lookup?_cons_self] at h
      rw [List.cons_append, lookup?_cons_self]
      exact h
    · rw [lookup?_cons_ne _ _ _ _ hk] at h
      rw [List.cons_append, lookup?_cons_ne _ _ _ _ hk]
      exact ih h

theorem tableKeys_append {P : Type} (t l : List (String × Item P)) :
    tableKeys (t ++ l) = tableKeys t ++ tableKeys l := by
  simp [tableKeys]

theorem tableKeys_replaceFirst {P : Type} (t : List (String × Item P)) (k : String)
    (it : Item P) : tableKeys (replaceFirst t k it) = tableKeys t := by
  induction t with
  | nil => rfl
  | cons e rest ih =>
    rcases e with ⟨k0, it0⟩
    by_cases h : k0 = k
    · simp only [replaceFirst]
      rw [if_pos (by simp [h])]
      simp [tableKeys]
    · simp only [replaceFirst]
      rw [if_neg (by simp [h])]
      simp only [tableKeys, List.map_cons]
      have := ih
      simp only [tableKeys] at this
      rw [this]

theorem lookup?_replaceFirst_self {P : Type} (t : List (String × Item P)) (k : String)
    (it it' : Item P) (h : lookup? t k = some it') :
    lookup? (replaceFirst t k it) k = some it := by
  induction t with
  | nil => simp [lookup?] at h
  | cons e rest ih =>
    rcases e with ⟨k0, it0⟩
    by_cases hk : k = k0
    · subst hk
      simp only [replaceFirst]
      rw [if_pos (by simp)]
      exact lookup?_cons_self _ _ _
    · rw [lookup?_cons_ne _ _ _ _ hk] at h
      simp only [replaceFirst]
      rw [if_neg (by simp only [beq_iff_eq]; exact fun hkk => hk hkk.symm)]
      rw [lookup?_cons_ne _ _ _ _ hk]
      exact ih h

theorem lookup?_replaceFirst_ne {P : Type} (t : List (String × Item P)) (k k' : String)
    (it : Item P) (h : k' ≠ k) :
    lookup? (replaceFirst t k it) k' = lookup? t k' := by
  induction t with
  | nil => rfl
  | cons e rest ih =>
    rcases e with ⟨k0, it0⟩
    by_cases hk : k0 = k
    · subst hk
      simp only [replaceFirst]
      rw [if_pos (by simp)]
      rw [lookup?_cons_ne _ _ _ _ h, lookup?_cons_ne _ _ _ _ h]
    · simp only [replaceFirst]
      rw [if_neg (by simp [hk])]
      by_cases hk' : k' = k0
      · subst hk'
        rw [lookup?_cons_self, lookup?_cons_self]
      · rw [lookup?_cons_ne _ _ _ _ hk', lookup?_cons_ne _ _ _ _ hk']
        exact ih

theorem find?_eq_some_of_lookup {P : Type} (t : List (String × Item P)) (k : String)
    (it : Item P) (h : lookup? t k = some it) :
    ∃ k1, t.find? (fun e => e.1 == k) = some (k1, it) := by
  unfold lookup? at h
  cases hf : t.find? (fun e => e.1 == k) with
  | none => rw [hf] at h; cases h
  | some e =>
    rw [hf] at h
    rcases e with ⟨k1, it1⟩
    simp at h
    exact ⟨k1, by rw [h]⟩

theorem entryMergeWith_of_absent {P : Type} (vm : Value P → Value P → Option (Value P))
    (t : List (String × Item P)) (k : String) (it : Item P) (h : lookup? t k = none) :
    entryMergeWith vm t k it = some (t ++ [(k, it)]) := by
  unfold entryMergeWith
  unfold lookup? at h
  cases hf : t.find? (fun e => e.1 == k) with
  | none => rfl
  | some e => rw [hf] at h; simp at h

theorem entryMergeWith_of_present {P : Type} (vm : Value P → Value P → Option (Value P))
    (t : List (String × Item P)) (k k1 : String) (it it' : Item P)
    (h : t.find? (fun e => e.1 == k) = some (k1, it')) :
    entryMergeWith vm t k it =
      (vm it'.value it.value).map fun v =>
        replaceFirst t k (.mk (it'.comments ++ it.comments) v) := by
  unfold entryMergeWith
  rw [h]

/-- Modelled from the spec: the per-key content that section 4.4 prescribes
for the result of a table merge.  Used only to state C1. -/
def mergeSpecLookup {P : Type} (t t2 : List (String × Item P)) (k : String) :
    Option (Item P) :=
  match lookup? t k, lookup? t2 k with
  | some it, some it2 =>
    (Value.merge it.value it2.value).map fun v => .mk (it.comments ++ it2.comments) v
  | some it, none => some it
  | none, some it2 => some it2
  | none, none => none

theorem tableMergeWith_spec {P : Type} :
    ∀ (t2 t r : List (String × Item P)),
      (tableKeys t).Nodup → (tableKeys t2).Nodup →
      tableMergeWith (fun a b => Value.merge a b) t t2 = some r →
      tableKeys r = tableKeys t ++ tableKeys (t2.filter fun e => (lookup? t e.1).isNone)
      ∧ ∀ k, lookup? r k = mergeSpecLookup t t2 k := by
  intro t2
  induction t2 with
  | nil =>
    intro t r hnt hn2 hm
    cases hm
    refine ⟨by simp [tableKeys], ?_⟩
    intro k
    unfold mergeSpecLookup
    rw [show lookup? ([] : List (String × Item P)) k = none from rfl]
    cases lookup? t k <;> rfl
  | cons e rest ih =>
    intro t r hnt hn2 hm
    rcases e with ⟨k0, it0⟩
    have hk0rest : k0 ∉ tableKeys rest := by
      simp only [tableKeys, List.map_cons, List.nodup_cons] at hn2
      exact hn2.1
    have hnrest : (tableKeys rest).Nodup := by
      simp only [tableKeys, List.map_cons, List.nodup_cons] at hn2
      exact hn2.2
    by_cases hl0 : lookup? t k0 = none
    · -- fresh key: appended at the end
      have hstep : tableMergeWith (fun a b => Value.merge a b) t ((k0, it0) :: rest) =
          tableMergeWith (fun a b => Value.merge a b) (t ++ [(k0, it0)]) rest := by
        show (entryMergeWith _ t k0 it0).bind _ = _
        rw [entryMergeWith_of_absent _ _ _ _ hl0]
        rfl
      rw [hstep] at hm
      have hk0t : k0 ∉ tableKeys t := (lookup?_eq_none_iff t k0).mp hl0
      have hnt' : (tableKeys (t ++ [(k0, it0)])).Nodup := by
        rw [tableKeys_append]
        refine List.nodup_append.mpr ⟨hnt, List.nodup_singleton _, ?_⟩
        intro a ha hb
        have hb' : a = k0 := by simpa [tableKeys] using hb
        subst hb'
        exact hk0t ha
      rcases ih (t ++ [(k0, it0)]) r hnt' hnrest hm with ⟨hkeys, hlook⟩
      have hfilter : rest.filter (fun e => (lookup? (t ++ [(k0, it0)]) e.1).isNone) =
          rest.filter (fun e => (lookup? t e.1).isNone) := by
        apply List.filter_congr
        intro e he
        have hne : e.1 ≠ k0 := by
          intro hcontra
          exact hk0rest (by
            rw [← hcontra]
            exact List.mem_map_of_mem Prod.fst he)
        by_cases hcase : lookup? t e.1 = none
        · rw [lookup?_append_right _ _ _ hcase, lookup?_cons_ne _ _ _ _ hne]
          rw [hcase]
          rfl
        · rcases Option.ne_none_iff_exists'.mp hcase with ⟨it1, hit1⟩
          rw [lookup?_append_left _ _ _ _ hit1, hit1]
      constructor
      · rw [hkeys, hfilter, tableKeys_append]
        have hhead : ((lookup? t (k0, it0).1).isNone) = true := by
          rw [show ((k0, it0).1) = k0 from rfl, hl0]
          rfl
        rw [@List.filter_cons_of_pos _ (fun e => (lookup? t e.1).isNone) (k0, it0) rest hhead]
        simp [tableKeys]
      · intro k
        rw [hlook k]
        unfold mergeSpecLookup
        by_cases hk : k = k0
        · subst hk
          rw [hl0, lookup?_cons_self, lookup?_append_right _ _ _ hl0, lookup?_cons_self]
          rw [(lookup?_eq_none_iff rest k).mpr hk0rest]
        · rw [lookup?_cons_ne _ _ _ _ hk]
          by_cases hcase : lookup? t k = none
          · rw [hcase, lookup?_append_right _ _ _ hcase, lookup?_cons_ne _ _ _ _ hk]
            rw [show lookup? ([] : List (String × Item P)) k = none from rfl]
          · rcases Option.ne_none_iff_exists'.mp hcase with ⟨it1, hit1⟩
            rw [hit1, lookup?_append_left _ _ _ _ hit1]
    · -- existing key: recursive merge, comments appended, position kept
      rcases Option.ne_none_iff_exists'.mp hl0 with ⟨it1, hit1⟩
      rcases find?_eq_some_of_lookup t k0 it1 hit1 with ⟨k1, hf⟩
      have hstep : tableMergeWith (fun a b => Value.merge a b) t ((k0, it0) :: rest) =
          (Value.merge it1.value it0.value).bind fun v =>
            tableMergeWith (fun a b => Value.merge a b)
              (replaceFirst t k0 (.mk (it1.comments ++ it0.comments) v)) rest := by
        show (entryMergeWith _ t k0 it0).bind _ = _
        rw [entryMergeWith_of_present _ _ _ _ _ _ hf]
        cases Value.merge it1.value it0.value <;> rfl
      rw [hstep] at hm
      cases hv : Value.merge it1.value it0.value with
      | none => rw [hv] at hm; cases hm
      | some v =>
        rw [hv] at hm
        simp only [Option.some_bind] at hm
        set t' := replaceFirst t k0 (Item.mk (it1.comments ++ it0.comments) v) with ht'
        have hkeys' : tableKeys t' = tableKeys t := tableKeys_replaceFirst _ _ _
        have hnt' : (tableKeys t').Nodup := by rw [hkeys']; exact hnt
        rcases ih t' r hnt' hnrest hm with ⟨hkeys, hlook⟩
        have hfilter : rest.filter (fun e => (lookup? t' e.1).isNone) =
            rest.filter (fun e => (lookup? t e.1).isNone) := by
          apply List.filter_congr
          intro e he
          by_cases hne : e.1 = k0
          · rw [hne]
            rw [show lookup? t' k0 = some (Item.mk (it1.comments ++ it0.comments) v) from
              lookup?_replaceFirst_self _ _ _ _ hit1, hit1]
            rfl
          · rw [lookup?_replaceFirst_ne _ _ _ _ hne]
        constructor
        · rw [hkeys, hkeys', hfilter]
          have hhead : ((lookup? t (k0, it0).1).isNone) = false := by
            rw [show ((k0, it0).1) = k0 from rfl, hit1]
            rfl
          rw [@List.filter_cons_of_neg _ (fun e => (lookup? t e.1).isNone) (k0, it0) rest
            (by simp only [hhead]; exact fun hc => by cases hc)]
        · intro k
          rw [hlook k]
          unfold mergeSpecLookup
          by_cases hk : k = k0
          · subst hk
            rw [hit1, lookup?_cons_self,
              show lookup? t' k = some (Item.mk (it1.comments ++ it0.comments) v) from
                lookup?_replaceFirst_self _ _ _ _ hit1,
              (lookup?_eq_none_iff rest k).mpr hk0rest]
            show some (Item.mk (it1.comments ++ it0.comments) v) =
              (Value.merge it1.value it0.value).map fun w => Item.mk (it1.comments ++ it0.comments) w
            rw [hv]
            rfl
          · rw [lookup?_cons_ne _ _ _ _ hk, lookup?_replaceFirst_ne _ _ _ _ hk]

/-- C1: merge dispatches on the target's shape.  When both are tables, the
result holds, for each key, the recursively merged value with the incoming
comments appended after the existing ones when the key exists in both, the
unchanged target entry when only the target has it, and the incoming entry
when only the incoming table has it; fresh keys are appended after all
target keys, in incoming order.  When both are arrays, the incoming items
are appended after the existing ones.  A primitive target, or any shape
mismatch, is a structural conflict: the reference implementation panics,
modeled as `none` -- merge never silently resolves it. -/
theorem merge_characterization {P : Type} :
    (∀ (p : P) (v : Value P), Value.merge (.Primitive p) v = none)
    ∧ (∀ (a : List (Item P)) (p : P), Value.merge (.Array a) (.Primitive p) = none)
    ∧ (∀ (a : List (Item P)) (t : List (String × Item P)),
        Value.merge (.Array a) (.Table t) = none)
    ∧ (∀ (t : List (String × Item P)) (p : P), Value.merge (.Table t) (.Primitive p) = none)
    ∧ (∀ (t : List (String × Item P)) (a : List (Item P)),
        Value.merge (.Table t) (.Array a) = none)
    ∧ (∀ (a a2 : List (Item P)), Value.merge (.Array a) (.Array a2) = some (.Array (a ++ a2)))
    ∧ (∀ (t t2 r : List (String × Item P)), (tableKeys t).Nodup → (tableKeys t2).Nodup →
        Value.merge (.Table t) (.Table t2) = some (.Table r) →
        tableKeys r = tableKeys t ++ tableKeys (t2.filter fun e => (lookup? t e.1).isNone)
        ∧ ∀ k, lookup? r k = mergeSpecLookup t t2 k) := by
  refine ⟨?_, ?_, ?_, ?_, ?_, ?_, ?_⟩
  · intro p v
    rw [Value.merge_eq]
  · intro a p
    rw [Value.merge_eq]
  · intro a t
    rw [Value.merge_eq]
  · intro t p
    rw [Value.merge_eq]
  · intro t a
    rw [Value.merge_eq]
  · intro a a2
    rw [Value.merge_eq]
  · intro t t2 r hnt hn2 hm
    rw [Value.merge_eq] at hm
    have hm2 : (tableMergeWith (fun a b => Value.merge a b) t t2).map Value.Table =
        some (Value.Table r) := hm
    have hm' : tableMergeWith (fun a b => Value.merge a b) t t2 = some r := by
      cases htm : tableMergeWith (fun a b => Value.merge a b) t t2 with
      | none => rw [htm] at hm2; cases hm2
      | some r' =>
        rw [htm] at hm2
        simp at hm2
        rw [hm2]
    exact tableMergeWith_spec t2 t r hnt hn2 hm'

theorem merge_characterization_witness :
    tableKeys (["b", "c"].map fun k => (k, Item.mk ([] : Comments) (Value.Primitive true))) =
      tableKeys [("b", Item.mk [] (Value.Primitive true))] ++
        tableKeys (([("c", Item.mk [] (Value.Primitive true))].filter
          fun e => (lookup? [("b", Item.mk [] (Value.Primitive true))] e.1).isNone)) :=
  ((@merge_characterization Bool).2.2.2.2.2.2
    [("b", Item.mk [] (Value.Primitive true))]
    [("c", Item.mk [] (Value.Primitive true))]
    [("b", Item.mk [] (Value.Primitive true)), ("c", Item.mk [] (Value.Primitive true))]
    (by decide) (by decide) rfl).1.symm.trans (by rfl)


/-- Rust `char::is_ascii_alphanumeric`. -/
def isAsciiAlphanumeric (c : Char) : Bool :=
  ('0' ≤ c && c ≤ '9') || ('A' ≤ c && c ≤ 'Z') || ('a' ≤ c && c ≤ 'z')

/-- Flags (escape/mod.rs): four booleans computed in one left-to-right scan. -/
structure Flags where
  is_quoted : Bool
  has_lf_or_cr : Bool
  has_escape : Bool
  has_apostrophe : Bool
deriving DecidableEq, Repr

/-- The loop body of Flags::parse (escape/mod.rs), including the
short-circuit break once all four flags are true. -/
def Flags.parseAux : Flags → List Char → Flags
  | fl, [] => fl
  | fl, c :: rest =>
    let q := fl.is_quoted || !(isAsciiAlphanumeric c || c == '_' || c == '-')
    let lf := fl.has_lf_or_cr || (c == '\n' || c == '\r')
    let esc := fl.has_escape ||
      (isAsciiControl c && !(c == '\t') && !(c == '\n') && !(c == '\r'))
    let ap := fl.has_apostrophe || (c == '\'')
    let fl2 : Flags := ⟨q, lf, esc, ap⟩
    if q && lf && esc && ap then fl2 else Flags.parseAux fl2 rest

/-- Flags::parse (escape/mod.rs), starting from the all-false default. -/
def Flags.parse (input : List Char) : Flags :=
  Flags.parseAux ⟨false, false, false, false⟩ input

theorem Flags.parseAux_spec (s : List Char) :
    ∀ fl : Flags,
      (Flags.parseAux fl s).is_quoted =
        (fl.is_quoted || s.any fun c => !(isAsciiAlphanumeric c || c == '_' || c == '-'))
      ∧ (Flags.parseAux fl s).has_lf_or_cr =
        (fl.has_lf_or_cr || s.any fun c => c == '\n' || c == '\r')
      ∧ (Flags.parseAux fl s).has_escape =
        (fl.has_escape || s.any fun c =>
          isAsciiControl c && !(c == '\t') && !(c == '\n') && !(c == '\r'))
      ∧ (Flags.parseAux fl s).has_apostrophe =
        (fl.has_apostrophe || s.any fun c => c == '\'') := by
  induction s with
  | nil =>
    intro fl
    simp [Flags.parseAux]
  | cons c rest ih =>
    intro fl
    simp only [Flags.parseAux]
    by_cases hbrk : ((fl.is_quoted || !(isAsciiAlphanumeric c || c == '_' || c == '-'))
        && (fl.has_lf_or_cr || (c == '\n' || c == '\r'))
        && (fl.has_escape ||
            (isAsciiControl c && !(c == '\t') && !(c == '\n') && !(c == '\r')))
        && (fl.has_apostrophe || (c == '\''))) = true
    · rw [if_pos hbrk]
      simp only [Bool.and_eq_true] at hbrk
      rcases hbrk with ⟨⟨⟨h1, h2⟩, h3⟩, h4⟩
      refine ⟨?_, ?_, ?_, ?_⟩ <;>
        simp only [List.any_cons, ← Bool.or_assoc, h1, h2, h3, h4, Bool.true_or]
    · rw [if_neg hbrk]
      rcases ih ⟨fl.is_quoted || !(isAsciiAlphanumeric c || c == '_' || c == '-'),
        fl.has_lf_or_cr || (c == '\n' || c == '\r'),
        fl.has_escape || (isAsciiControl c && !(c == '\t') && !(c == '\n') && !(c == '\r')),
        fl.has_apostrophe || (c == '\'')⟩ with ⟨i1, i2, i3, i4⟩
      refine ⟨?_, ?_, ?_, ?_⟩
      · rw [i1]
        simp [List.any_cons, Bool.or_assoc]
      · rw [i2]
        simp [List.any_cons, Bool.or_assoc]
      · rw [i3]
        simp [List.any_cons, Bool.or_assoc]
      · rw [i4]
        simp [List.any_cons, Bool.or_assoc]

theorem Flags.parse_spec (s : List Char) :
    (Flags.parse s).is_quoted =
      (s.any fun c => !(isAsciiAlphanumeric c || c == '_' || c == '-'))
    ∧ (Flags.parse s).has_lf_or_cr = (s.any fun c => c == '\n' || c == '\r')
    ∧ (Flags.parse s).has_escape =
      (s.any fun c => isAsciiControl c && !(c == '\t') && !(c == '\n') && !(c == '\r'))
    ∧ (Flags.parse s).has_apostrophe = (s.any fun c => c == '\'') := by
  have h := Flags.parseAux_spec s ⟨false, false, false, false⟩
  simpa [Flags.parse] using h

/-- Quotes (quotes.rs): single- or double-quoted. -/
inductive Quotes (T : Type) where
  | Single (t : T)
  | Double (t : T)
deriving DecidableEq, Repr

/-- Quoted (quotes.rs): single- or multi-line representation. -/
inductive Quoted (T : Type) where
  | SingleLine (q : Quotes T)
  | MultiLine (q : Quotes T)
deriving DecidableEq, Repr

/-- Quoted::new (quotes.rs): quoting-style selection from the parsed Flags. -/
def Quoted.new (input : List Char) : Quoted (List Char) :=
  let flags := Flags.parse input
  if flags.has_escape || flags.has_apostrophe then
    if flags.has_lf_or_cr then .MultiLine (.Double input) else .SingleLine (.Double input)
  else
    if flags.has_lf_or_cr then .MultiLine (.Single input) else .SingleLine (.Single input)

def Quotes.isDouble {T : Type} : Quotes T → Bool
  | .Single _ => false
  | .Double _ => true

def Quoted.quotes {T : Type} : Quoted T → Quotes T
  | .SingleLine q => q
  | .MultiLine q => q

def Quoted.isMultiLine {T : Type} : Quoted T → Bool
  | .SingleLine _ => false
  | .MultiLine _ => true

/-- C9: the double-quoted form is chosen iff the text contains an ASCII
control character other than tab, LF, CR, or contains an apostrophe;
independently, the MultiLine representation is chosen iff the text contains
a line feed or carriage return. -/
theorem quoted_new_style_selection (s : List Char) :
    ((Quoted.new s).quotes.isDouble = true ↔
      ∃ c ∈ s, (isAsciiControl c = true ∧ c ≠ '\t' ∧ c ≠ '\n' ∧ c ≠ '\r') ∨ c = '\'')
    ∧ ((Quoted.new s).isMultiLine = true ↔ ∃ c ∈ s, c = '\n' ∨ c = '\r') := by
  rcases Flags.parse_spec s with ⟨h1, h2, h3, h4⟩
  have hdouble : (Quoted.new s).quotes.isDouble =
      ((Flags.parse s).has_escape || (Flags.parse s).has_apostrophe) := by
    unfold Quoted.new
    by_cases hd : ((Flags.parse s).has_escape || (Flags.parse s).has_apostrophe) = true
    · rw [if_pos hd, hd]
      by_cases hm : (Flags.parse s).has_lf_or_cr = true
      · rw [if_pos hm]; rfl
      · rw [if_neg hm]; rfl
    · rw [if_neg hd, Bool.eq_false_iff.mpr hd]
      by_cases hm : (Flags.parse s).has_lf_or_cr = true
      · rw [if_pos hm]; rfl
      · rw [if_neg hm]; rfl
  have hmulti : (Quoted.new s).isMultiLine = (Flags.parse s).has_lf_or_cr := by
    unfold Quoted.new
    by_cases hd : ((Flags.parse s).has_escape || (Flags.parse s).has_apostrophe) = true
    · rw [if_pos hd]
      by_cases hm : (Flags.parse s).has_lf_or_cr = true
      · rw [if_pos hm, hm]; rfl
      · rw [if_neg hm, Bool.eq_false_iff.mpr hm]; rfl
    · rw [if_neg hd]
      by_cases hm : (Flags.parse s).has_lf_or_cr = true
      · rw [if_pos hm, hm]; rfl
      · rw [if_neg hm, Bool.eq_false_iff.mpr hm]; rfl
  constructor
  · rw [hdouble, h3, h4]
    simp only [Bool.or_eq_true, List.any_eq_true]
    constructor
    · rintro (⟨c, hc, hp⟩ | ⟨c, hc, hp⟩)
      · refine ⟨c, hc, Or.inl ?_⟩
        simp only [Bool.and_eq_true, Bool.not_eq_true', beq_eq_false_iff_ne] at hp
        exact ⟨hp.1.1.1, hp.1.1.2, hp.1.2, hp.2⟩
      · refine ⟨c, hc, Or.inr ?_⟩
        simpa using hp
    · rintro ⟨c, hc, hp | hp⟩
      · refine Or.inl ⟨c, hc, ?_⟩
        simp only [Bool.and_eq_true, Bool.not_eq_true', beq_eq_false_iff_ne]
        exact ⟨⟨⟨hp.1, hp.2.1⟩, hp.2.2.1⟩, hp.2.2.2⟩
      · exact Or.inr ⟨c, hc, by simpa using hp⟩
  · rw [hmulti, h2, List.any_eq_true]
    constructor
    · rintro ⟨c, hc, hp⟩
      refine ⟨c, hc, ?_⟩
      simpa using hp
    · rintro ⟨c, hc, hp⟩
      refine ⟨c, hc, ?_⟩
      simpa using hp


/-- Segment (key.rs): one dotted-key component, either bare or quoted.  The
borrowed `Cow<str>` payload is embedded as `List Char`. -/
inductive Segment where
  | Unquoted (text : List Char)
  | Quoted (q : Quoted (List Char))
deriving DecidableEq, Repr

/-- Segment::new (key.rs): bare if `needs-quoting` is false, otherwise a
single-line quoted form (double-quoted when a single-quote literal cannot
hold the text). -/
def Segment.new (input : List Char) : Segment :=
  let flags := Flags.parse input
  if flags.is_quoted then
    if flags.has_lf_or_cr || flags.has_escape || flags.has_apostrophe then
      .Quoted (.SingleLine (.Double input))
    else
      .Quoted (.SingleLine (.Single input))
  else .Unquoted input

/-- Segment::into_inner (key.rs): the logical (decoded) text, used when a
Segment is converted into the `String` key of a Table. -/
def Segment.into_inner : Segment → List Char
  | .Unquoted t => t
  | .Quoted (.SingleLine (.Single t)) => t
  | .Quoted (.MultiLine (.Single t)) => t
  | .Quoted (.SingleLine (.Double t)) => t
  | .Quoted (.MultiLine (.Double t)) => t

/-- The value stream fed to the hasher by the derived Hash implementations
of key.rs `Segment`, quotes.rs `Quoted` and `Quotes`: each enum writes its
variant discriminant and then its field; `str` contributes its bytes.  Two
values hash identically for every hasher exactly when these streams agree. -/
def Quotes.hashStream : Quotes (List Char) → List Nat
  | .Single t => 0 :: t.map Char.toNat
  | .Double t => 1 :: t.map Char.toNat

def Quoted.hashStream : Quoted (List Char) → List Nat
  | .SingleLine q => 0 :: q.hashStream
  | .MultiLine q => 1 :: q.hashStream

def Segment.hashStream : Segment → List Nat
  | .Unquoted t => 0 :: t.map Char.toNat
  | .Quoted q => 1 :: q.hashStream

/-- C3 counterexample: Segment equality and hashing are derived
structurally, so three Segments carrying the same logical text "t" under
different quoting styles are pairwise unequal and feed different streams to
the hasher. -/
theorem segment_eq_counterexample :
    Segment.Unquoted ['t'] ≠ Segment.Quoted (.SingleLine (.Single ['t']))
    ∧ Segment.Quoted (.SingleLine (.Single ['t'])) ≠ Segment.Quoted (.SingleLine (.Double ['t']))
    ∧ Segment.hashStream (Segment.Unquoted ['t']) ≠
        Segment.hashStream (Segment.Quoted (.SingleLine (.Single ['t'])))
    ∧ Segment.hashStream (Segment.Quoted (.SingleLine (.Single ['t']))) ≠
        Segment.hashStream (Segment.Quoted (.SingleLine (.Double ['t'])))
    ∧ (Segment.Unquoted ['t']).into_inner = ['t']
    ∧ (Segment.Quoted (.SingleLine (.Single ['t']))).into_inner = ['t'] := by
  refine ⟨?_, ?_, ?_, ?_, rfl, rfl⟩ <;> decide

/-- C3 (amended): equality and hashing of Segment are the derived,
structural ones: segments are equal iff they have the same quoting shape
and the same text, a bare and a quoted segment are never equal, and
differently-quoted segments of equal logical text feed different streams
to the hasher; only the conversion to a Table key (`into_inner`) ignores
the quoting style, so equal segments always produce the same key text. -/
theorem segment_eq_structural :
    (∀ s t : List Char, Segment.Unquoted s = Segment.Unquoted t ↔ s = t)
    ∧ (∀ qa qb : Quoted (List Char), Segment.Quoted qa = Segment.Quoted qb ↔ qa = qb)
    ∧ (∀ (s : List Char) (q : Quoted (List Char)), Segment.Unquoted s ≠ Segment.Quoted q)
    ∧ (∀ (t : List Char) (q : Quoted (List Char)),
        Segment.hashStream (Segment.Unquoted t) ≠ Segment.hashStream (Segment.Quoted q))
    ∧ (∀ t : List Char,
        Quoted.hashStream (.SingleLine (.Single t)) ≠ Quoted.hashStream (.SingleLine (.Double t)))
    ∧ (∀ a b : Segment, a = b → a.into_inner = b.into_inner) := by
  refine ⟨?_, ?_, ?_, ?_, ?_, ?_⟩
  · intro s t
    exact ⟨fun h => by cases h; rfl, fun h => by rw [h]⟩
  · intro qa qb
    exact ⟨fun h => by cases h; rfl, fun h => by rw [h]⟩
  · intro s q h
    cases h
  · intro t q h
    have := congrArg List.head? h
    simp [Segment.hashStream] at this
  · intro t h
    have := congrArg (fun l => l.get? 1) h
    simp [Quoted.hashStream, Quotes.hashStream] at this
  · intro a b h
    rw [h]


/-- Kind (format/independent.rs `Kind<T, U = T>`): marks a table versus an
array-of-tables; reused by ast.rs for header lines. -/
inductive Kind (T U : Type) where
  | ArrayOfTables (t : T)
  | Table (u : U)
deriving DecidableEq, Repr

def Kind.into_inner {T : Type} : Kind T T → T
  | .ArrayOfTables t => t
  | .Table t => t

/-- Data of one line event (ast.rs `Data`). -/
inductive Data (P : Type) where
  | Header (key : Kind (List Segment) (List Segment))
  | KeyValue (key : List Segment) (value : Value P)

/-- One line event (ast.rs `Line`): optional data plus optional comment. -/
structure Line (P : Type) where
  data : Option (Data P)
  meta : Option Comment

/-- Comments::maybe_push (comment.rs). -/
def maybePush (cs : Comments) (m : Option Comment) : Comments :=
  match m with
  | some c => cs ++ [c]
  | none => cs

/-- Value::wrap (value.rs) after reversal: the segments are consumed from
the innermost (last) to the outermost; `Vec::pop` removes the last
element, so `Value.wrap` below reverses first.  The Table key is the
segment's logical text (`Segment::into()` goes through `into_inner`).
Intermediate chain tables get empty comments (`Item::from`). -/
def wrapRev {P : Type} : List Segment → Item P → Value P
  | [], it => it.value
  | [segment], it => .Table [(String.mk segment.into_inner, it)]
  | segment :: rest, it =>
      wrapRev rest (Item.fromValue (.Table [(String.mk segment.into_inner, it)]))

/-- Value::wrap (value.rs): build a single-chain nested table from a dotted
key; an empty key degenerates to the bare value. -/
def Value.wrap {P : Type} (key : List Segment) (it : Item P) : Value P :=
  wrapRev key.reverse it

/-- Builder state (ast.rs `State`). -/
inductive State (P : Type) where
  | Unheaded (table : List (String × Item P))
  | Headed (comments : Comments) (key : Kind (List Segment) (List Segment))
      (inner_table : List (String × Item P)) (outer_table : List (String × Item P))

def State.new {P : Type} : State P :=
  .Unheaded []

/-- State::into_table (ast.rs): resolve the current state into the root
table.  For an ArrayOfTables header the inner table's Item is wrapped in a
one-element Array first; the wrapped value is merged into the outer table
(a panic on structural conflict is `none`). -/
def State.into_table {P : Type} : State P → Option (List (String × Item P))
  | .Unheaded table => some table
  | .Headed comments key inner_table outer_table =>
    let item := Item.mk comments (Value.Table inner_table)
    let item := match key with
      | .ArrayOfTables _ => Item.fromValue (Value.Array [item])
      | .Table _ => item
    Table.merge outer_table (Value.wrap key.into_inner item)

/-- `state.table_mut().merge(value)` (ast.rs): merge into the inner table
when headed, else into the unheaded accumulator. -/
def State.mergeCurrent {P : Type} : State P → Value P → Option (State P)
  | .Unheaded table, v => (Table.merge table v).map .Unheaded
  | .Headed cs key inner outer, v =>
    (Table.merge inner v).map fun inner2 => .Headed cs key inner2 outer

/-- One iteration of the `From<Lines> for Table` loop (ast.rs). -/
def buildStep {P : Type} (sc : State P × Comments) (line : Line P) :
    Option (State P × Comments) :=
  match line.data with
  | some (.Header key) =>
    (sc.1.into_table).map fun outer =>
      (.Headed (maybePush sc.2 line.meta) key [] outer, [])
  | some (.KeyValue key value) =>
    (sc.1.mergeCurrent (Value.wrap key (Item.mk (maybePush sc.2 line.meta) value))).map
      fun st => (st, [])
  | none => some (sc.1, maybePush sc.2 line.meta)

/-- `From<Lines> for Table` (ast.rs): fold the line events, then resolve
the final state. -/
def fromLines {P : Type} (lines : List (Line P)) : Option (List (String × Item P)) :=
  (lines.foldlM buildStep (State.new, [])).bind fun sc => sc.1.into_table

theorem segment_new_into_inner (cs : List Char) : (Segment.new cs).into_inner = cs := by
  unfold Segment.new
  by_cases h1 : (Flags.parse cs).is_quoted = true
  · rw [if_pos h1]
    by_cases h2 : ((Flags.parse cs).has_lf_or_cr || (Flags.parse cs).has_escape ||
        (Flags.parse cs).has_apostrophe) = true
    · rw [if_pos h2]; rfl
    · rw [if_neg h2]; rfl
  · rw [if_neg h1]; rfl

/-- C5: the four-line scenario builds the tree a -> (b, c -> d); resolving
an ArrayOfTables header wraps the inner table in a one-element array before
wrapping the key path and merging, so that a prior array under the same key
is extended by one element; root key order follows first declaration; two
array-of-tables blocks with the same header concatenate. -/
theorem document_builder_scenarios {P : Type} :
    (fromLines ([⟨some (.Header (.Table [Segment.new "a".toList])), none⟩,
      ⟨some (.KeyValue [Segment.new "b".toList] (.Primitive true)), none⟩,
      ⟨some (.Header (.Table [Segment.new "a".toList, Segment.new "c".toList])), none⟩,
      ⟨some (.KeyValue [Segment.new "d".toList] (.Primitive true)), none⟩] : List (Line Bool)) =
      some [("a", Item.mk [] (Value.Table [
        ("b", Item.mk [] (Value.Primitive true)),
        ("c", Item.mk [] (Value.Table [("d", Item.mk [] (Value.Primitive true))]))]))])
    ∧ (∀ (seg : Segment) (cs cs0 : Comments) (inner outer : List (String × Item P))
        (arr : List (Item P)),
        lookup? outer (String.mk seg.into_inner) = some (Item.mk cs0 (Value.Array arr)) →
        State.into_table (State.Headed cs (Kind.ArrayOfTables [seg]) inner outer) =
          some (replaceFirst outer (String.mk seg.into_inner)
            (Item.mk cs0 (Value.Array (arr ++ [Item.mk cs (Value.Table inner)])))))
    ∧ (fromLines ([⟨some (.KeyValue [Segment.new "b".toList] (.Primitive true)), none⟩,
      ⟨some (.Header (.Table [Segment.new "a".toList])), none⟩,
      ⟨some (.KeyValue [Segment.new "c".toList] (.Primitive true)), none⟩] : List (Line Bool)) =
      some [("b", Item.mk [] (Value.Primitive true)),
        ("a", Item.mk [] (Value.Table [("c", Item.mk [] (Value.Primitive true))]))])
    ∧ (fromLines ([⟨some (.Header (.ArrayOfTables [Segment.new "a".toList])), none⟩,
      ⟨some (.KeyValue [Segment.new "x".toList] (.Primitive true)), none⟩,
      ⟨some (.Header (.ArrayOfTables [Segment.new "a".toList])), none⟩,
      ⟨some (.KeyValue [Segment.new "y".toList] (.Primitive true)), none⟩] : List (Line Bool)) =
      some [("a", Item.mk [] (Value.Array [
        Item.mk [] (Value.Table [("x", Item.mk [] (Value.Primitive true))]),
        Item.mk [] (Value.Table [("y", Item.mk [] (Value.Primitive true))])]))]) := by
  refine ⟨by rfl, ?_, by rfl, by rfl⟩
  intro seg cs cs0 inner outer arr h
  rcases find?_eq_some_of_lookup outer (String.mk seg.into_inner) _ h with ⟨k1, hf⟩
  show Table.merge outer (Value.wrap (Kind.into_inner (Kind.ArrayOfTables [seg]))
    (Item.fromValue (Value.Array [Item.mk cs (Value.Table inner)]))) = _
  show (entryMergeWith (fun a b => Value.merge a b) outer (String.mk seg.into_inner)
      (Item.fromValue (Value.Array [Item.mk cs (Value.Table inner)]))).bind
      (fun t2 => tableMergeWith (fun a b => Value.merge a b) t2 []) = _
  rw [entryMergeWith_of_present _ _ _ _ _ _ hf]
  have hmv : Value.merge (Item.mk cs0 (Value.Array arr)).value
      (Item.fromValue (Value.Array [Item.mk cs (Value.Table inner)])).value =
      some (Value.Array (arr ++ [Item.mk cs (Value.Table inner)])) := by
    rw [show (Item.mk cs0 (Value.Array arr)).value = Value.Array arr from rfl]
    rw [show (Item.fromValue (Value.Array [Item.mk cs (Value.Table inner)])).value =
      Value.Array [Item.mk cs (Value.Table inner)] from rfl]
    rw [Value.merge_eq]
  rw [hmv]
  simp only [Item.comments, Item.fromValue, List.append_nil, Option.map_some, Option.some_bind]
  rfl

theorem document_builder_scenarios_witness :
    State.into_table (State.Headed ([] : Comments)
      (Kind.ArrayOfTables [Segment.new "a".toList]) []
      [("a", Item.mk [] (Value.Array ([] : List (Item Bool))))]) =
      some (replaceFirst [("a", Item.mk [] (Value.Array ([] : List (Item Bool))))]
        (String.mk (Segment.new "a".toList).into_inner)
        (Item.mk [] (Value.Array ([] ++ [Item.mk [] (Value.Table [])])))) :=
  (@document_builder_scenarios Bool).2.1 (Segment.new "a".toList) [] []
    [] [("a", Item.mk [] (Value.Array []))] [] (by rfl)


/-- Value::as_table (value.rs). -/
def Value.as_table {P : Type} : Value P → Option (List (String × Item P))
  | .Table t => some t
  | _ => none

/-- Value::is_table (value.rs). -/
def Value.is_table {P : Type} (v : Value P) : Bool :=
  v.as_table.isSome

/-- ArrayOfTables::is_array_of_tables (format/independent.rs): non-empty and
every element is a table. -/
def is_array_of_tables {P : Type} (a : List (Item P)) : Bool :=
  !a.isEmpty && a.all fun it => it.value.is_table

/-- ArrayOfTables::as_array_of_tables (format/independent.rs): the
(comments, table) pairs when every element is a table (an
`Option`-collect over the mapped iterator). -/
def as_array_of_tables {P : Type} : List (Item P) →
    Option (List (Comments × List (String × Item P)))
  | [] => some []
  | it :: rest =>
    match it.value.as_table with
    | none => none
    | some table => (as_array_of_tables rest).map ((it.comments, table) :: ·)

/-- Display of comment.rs `Kind::Pre(Vec<&str>)`: each Pre comment on its
own line. -/
def commentsPre (cs : Comments) : String :=
  String.join ((cs.filterMap fun c => match c with
    | .Pre t => some t
    | .Post _ => none).map fun t => "#" ++ t ++ "\n")

/-- Display of comment.rs `Kind::Post(Vec<&str>)`: the Post comments joined
on the same line, or nothing. -/
def commentsPost (cs : Comments) : String :=
  let posts := cs.filterMap fun c => match c with
    | .Post t => some t
    | .Pre _ => none
  if posts.isEmpty then "" else " #" ++ String.intercalate " " posts

/-- Display for Quoted (quotes.rs): 1 or 3 copies of the chosen quote
character around the (escaped, for double quotes) body. -/
def Quoted.render (q : Quoted (List Char)) : String :=
  match q with
  | .SingleLine (.Single t) => "'" ++ String.mk t ++ "'"
  | .MultiLine (.Single t) => "'''" ++ String.mk t ++ "'''"
  | .SingleLine (.Double t) => "\"" ++ String.mk (escape t Mode.SingleLine) ++ "\""
  | .MultiLine (.Double t) => "\"\"\"" ++ String.mk (escape t Mode.MultiLine) ++ "\"\"\""

/-- Display for Segment (key.rs, via derive_more): bare text or the quoted
rendering. -/
def Segment.render : Segment → String
  | .Unquoted t => String.mk t
  | .Quoted q => q.render

/-- Display of `Key::from_iter(segment texts)` (key.rs): segments joined by
a dot, each re-quoted by Segment::new. -/
def Key.render (key : List String) : String :=
  String.intercalate "." (key.map fun s => (Segment.new s.toList).render)

mutual

/-- Display for Inline (format/inline.rs), non-alternate form.  The
formatting of a Primitive is delegated to the external Display
implementations and supplied as `primStr`. -/
def inlineValue {P : Type} (primStr : P → String) : Value P → String
  | .Primitive p => primStr p
  | .Array items => "[" ++ inlineItems primStr items ++ "]"
  | .Table entries =>
    "\x7b" ++ (if entries.isEmpty then "" else " " ++ inlineEntries primStr entries ++ " ")
      ++ "\x7d"

/-- Array elements joined by a comma and space (comments dropped with a
diagnostic warning in the source). -/
def inlineItems {P : Type} (primStr : P → String) : List (Item P) → String
  | [] => ""
  | .mk _ v :: rest =>
    inlineValue primStr v ++ (if rest.isEmpty then "" else ", ") ++ inlineItems primStr rest

/-- Table entries `key = value` joined by a comma and space. -/
def inlineEntries {P : Type} (primStr : P → String) : List (String × Item P) → String
  | [] => ""
  | (seg, .mk _ v) :: rest =>
    (Segment.new seg.toList).render ++ " = " ++ inlineValue primStr v ++
      (if rest.isEmpty then "" else ", ") ++ inlineEntries primStr rest

end

/-- Leaf (format/independent.rs): a table entry rendered as a key/value
line by the independent renderer. -/
structure Leaf (P : Type) where
  comments : Comments
  segment : String
  value : Value P

/-- Branch (format/independent.rs): a table entry rendered as an
independent header section.  The parent chain serves only to compute the
full key path in the source (`Branch::key`), so the embedding stores the
computed path directly. -/
structure Branch (P : Type) where
  path : List String
  comments : Comments
  value : Kind (List (Comments × List (String × Item P))) (List (String × Item P))

/-- Display for Leaf (format/independent.rs): pre comments, `key = value`
via the inline renderer, post comments, newline. -/
def leafRender {P : Type} (primStr : P → String) (lf : Leaf P) : String :=
  commentsPre lf.comments ++ (Segment.new lf.segment.toList).render ++ " = " ++
    inlineValue primStr lf.value ++ commentsPost lf.comments ++ "\n"

/-- Partition for Table (format/independent.rs): split the direct entries,
preserving order on both sides, into leaves (primitives; arrays that are
not uniformly tables; inline-designated arrays/tables) and branches
(tables and arrays-of-tables not designated inline).  `parentPath` is
`branch.map Branch.key` of the source.  The source `unwrap` of
`as_array_of_tables` is total under the `is_array_of_tables` guard and is
embedded as `getD []`. -/
def Table.partition {P : Type} (t : List (String × Item P)) (parentPath : Option (List String))
    (is_inline : List String → Bool) : List (Leaf P) × List (Branch P) :=
  t.foldr (fun e acc =>
    let segment := e.1
    let item := e.2
    let key := match parentPath with
      | some p => p ++ [segment]
      | none => [segment]
    match item.value with
    | Value.Array array =>
      if is_array_of_tables array && !(is_inline key) then
        (acc.1, ⟨key, item.comments, Kind.ArrayOfTables ((as_array_of_tables array).getD [])⟩
          :: acc.2)
      else (⟨item.comments, segment, item.value⟩ :: acc.1, acc.2)
    | Value.Table table =>
      if !(is_inline key) then (acc.1, ⟨key, item.comments, Kind.Table table⟩ :: acc.2)
      else (⟨item.comments, segment, item.value⟩ :: acc.1, acc.2)
    | _ => (⟨item.comments, segment, item.value⟩ :: acc.1, acc.2)) ([], [])

/-- Display for Independent (format/independent.rs), with a structural fuel
so the definition computes in the kernel.  One recursion level steps from a
table to a table strictly contained in it, so `entriesSize t` (see
`Independent.renderAt`) always suffices; `Independent.renderAt_eq` recovers
the fuel-free unfolding.  The header line is printed only when the current
content has leaves or no sub-branches; a Branch renders as one Independent
per array element for an array-of-tables, or one Independent for a table. -/
def independentRenderF {P : Type} (primStr : P → String) (is_inline : List String → Bool) :
    Nat → Option (Branch P) → Option Comments → List (String × Item P) → String
  | 0, _, _, _ => ""
  | fuel + 1, branchOpt, commentsOpt, t =>
    let lb := Table.partition t (branchOpt.map Branch.path) is_inline
    let headerPart :=
      match branchOpt with
      | some branch =>
        if !lb.1.isEmpty || lb.2.isEmpty then
          "\n" ++ (match commentsOpt with
            | some cs => commentsPre cs
            | none => "") ++
          (match branch.value with
           | Kind.ArrayOfTables _ => "[[" ++ Key.render branch.path ++ "]]"
           | Kind.Table _ => "[" ++ Key.render branch.path ++ "]") ++
          (match commentsOpt with
            | some cs => commentsPost cs
            | none => "") ++ "\n"
        else ""
      | none => ""
    headerPart ++ String.join (lb.1.map (leafRender primStr)) ++
      String.join (lb.2.map fun b =>
        match b.value with
        | Kind.ArrayOfTables elems => String.join (elems.map fun e =>
            independentRenderF primStr is_inline fuel (some b) (some e.1) e.2)
        | Kind.Table tb => independentRenderF primStr is_inline fuel (some b) (some b.comments) tb)

/-- One Independent at its canonical fuel. -/
def Independent.renderAt {P : Type} (primStr : P → String) (is_inline : List String → Bool)
    (branchOpt : Option (Branch P)) (commentsOpt : Option Comments)
    (t : List (String × Item P)) : String :=
  independentRenderF primStr is_inline (entriesSize t + 1) branchOpt commentsOpt t

/-- Display for Branch (format/independent.rs) at canonical fuel. -/
def Branch.render {P : Type} (primStr : P → String) (is_inline : List String → Bool)
    (b : Branch P) : String :=
  match b.value with
  | Kind.ArrayOfTables elems => String.join (elems.map fun e =>
      Independent.renderAt primStr is_inline (some b) (some e.1) e.2)
  | Kind.Table tb => Independent.renderAt primStr is_inline (some b) (some b.comments) tb

/-- Independent::new + Display (format/independent.rs): the whole-document
renderer, no branch and no comments at the root. -/
def Independent.render {P : Type} (primStr : P → String) (t : List (String × Item P))
    (is_inline : List String → Bool) : String :=
  Independent.renderAt primStr is_inline none none t


/-- The bracketed header token printed for a Branch by the independent
renderer (format/independent.rs, Display for Independent): double brackets
for an array-of-tables branch, single brackets for a table branch, around
the rendered full key path. -/
def headerToken {P : Type} (branch : Branch P) : String :=
  match branch.value with
  | Kind.ArrayOfTables _ => "[[" ++ Key.render branch.path ++ "]]"
  | Kind.Table _ => "[" ++ Key.render branch.path ++ "]"

/-- C4 (counterexample): the document `d = [ { dc = { dca = true } } ]`
holds an array of tables at key `d` (`is_array_of_tables` accepts its
array), yet the independent renderer emits no `[[d]]` header for its sole
element: the element's table has no leaves and one sub-branch, so the
uniform header gate suppresses the header and the output is only the
`[d.dc]` section.  This refutes the claim that an array-of-tables branch
always prints one `[[key]]` header per element. -/
theorem aot_header_omission_counterexample :
    is_array_of_tables [Item.fromValue (Value.Table [("dc", Item.fromValue (Value.Table
      [("dca", Item.fromValue (Value.Primitive true))]))])] = true ∧
    Independent.render (fun b : Bool => cond b "true" "false")
      [("d", Item.fromValue (Value.Array [Item.fromValue (Value.Table
        [("dc", Item.fromValue (Value.Table
          [("dca", Item.fromValue (Value.Primitive true))]))])]))]
      (fun _ => false) = "\n[d.dc]\ndca = true\n" ∧
    ¬ ("[[".toList <:+: ("\n[d.dc]\ndca = true\n").toList) := by
  refine ⟨rfl, rfl, by decide⟩

/-- C4 (amended): one unfolding of the independent renderer below a branch.
The header gate `!leafs.is_empty() || branches.is_empty()` is applied
uniformly to every branch: when the current table has no leaves of its own
and at least one sub-branch, the header line is omitted whether the branch
is a table (`[key]`) or an element of an array of tables (`[[key]]`);
otherwise one header line is printed, with the pre/post comments around the
bracketed key token chosen by the branch kind. -/
theorem independent_header_gate {P : Type} (primStr : P → String)
    (ii : List String → Bool) (branch : Branch P) (commentsOpt : Option Comments)
    (t : List (String × Item P)) :
    Independent.renderAt primStr ii (some branch) commentsOpt t =
      (if !(Table.partition t (some branch.path) ii).1.isEmpty
          || (Table.partition t (some branch.path) ii).2.isEmpty then
        "\n" ++ (match commentsOpt with | some cs => commentsPre cs | none => "") ++
          headerToken branch ++
          (match commentsOpt with | some cs => commentsPost cs | none => "") ++ "\n"
      else "") ++
      String.join ((Table.partition t (some branch.path) ii).1.map (leafRender primStr)) ++
      String.join ((Table.partition t (some branch.path) ii).2.map fun b =>
        match b.value with
        | Kind.ArrayOfTables elems => String.join (elems.map fun e =>
            independentRenderF primStr ii (entriesSize t) (some b) (some e.1) e.2)
        | Kind.Table tb =>
            independentRenderF primStr ii (entriesSize t) (some b) (some b.comments) tb) := by
  cases branch with
  | mk path comments value => cases value <;> rfl


/-- C10: an empty array is never an array of tables.  `is_array_of_tables`
rejects the empty array; the partition files a table entry whose value is
an empty array as a leaf (regardless of the parent path and of the
`is_inline` predicate, here universally quantified); the inline renderer
prints the empty array as `[]`; and a concrete document `e = []` renders as
the single key/value line `e = []` even though `is_inline` answers false on
every path, with no `[[e]]` header blocks. -/
theorem empty_array_never_array_of_tables {P : Type} (primStr : P → String)
    (seg : String) (cs : Comments) (rest : List (String × Item P))
    (parentPath : Option (List String)) (ii : List String → Bool) :
    is_array_of_tables ([] : List (Item P)) = false ∧
    Table.partition ((seg, Item.mk cs (Value.Array [])) :: rest) parentPath ii =
      (⟨cs, seg, Value.Array []⟩ :: (Table.partition rest parentPath ii).1,
        (Table.partition rest parentPath ii).2) ∧
    inlineValue primStr (Value.Array ([] : List (Item P))) = "[]" ∧
    Independent.render (fun b : Bool => cond b "true" "false")
      [("e", Item.fromValue (Value.Array []))] (fun _ => false) = "e = []\n" ∧
    ¬ ("[[".toList <:+: (Independent.render (fun b : Bool => cond b "true" "false")
      [("e", Item.fromValue (Value.Array []))] (fun _ => false)).toList) := by
  refine ⟨rfl, rfl, rfl, rfl, by decide⟩

end Toml
